import Mathlib

/-!
Verification of the code-bridge core: the Go-source extractor
(`pkg/parser/types.go`, `pkg/parser/go.go`) and the JSONL content index
(`pkg/indexer/indexer.go`), shallowly embedded in Lean.

Machine integers (`int`, `token.Pos`) are modelled as `Int`; byte strings as
`String` over characters (all inputs of interest are ASCII, where Go's byte
indexing and Lean's character indexing agree).  File-system state (the single
JSONL store file) is carried explicitly in the `Indexer` record: `none` is a
missing file, `some lines` the file's lines.  I/O errors other than
"file does not exist" cannot arise in the pure model, so operations that
return `([]T, error)` in Go return `Except String (List T)` here and only ever
produce `.ok`.
-/

set_option maxRecDepth 4000

namespace CodeBridge

/-! ## crypto/sha256 and encoding/hex, as consumed by `HashCode`
SHA-256 over the UTF-8 bytes of a string, rendered as lowercase hex.
Words are `Nat` reduced mod 2^32 at every arithmetic step. -/

def rotr32 (n x : Nat) : Nat := ((x >>> n) ||| (x <<< (32 - n))) % 2 ^ 32

def sha256K : List Nat :=
  [1116352408, 1899447441, 3049323471, 3921009573, 961987163,
   1508970993, 2453635748, 2870763221, 3624381080, 310598401,
   607225278, 1426881987, 1925078388, 2162078206, 2614888103,
   3248222580, 3835390401, 4022224774, 264347078, 604807628,
   770255983, 1249150122, 1555081692, 1996064986, 2554220882,
   2821834349, 2952996808, 3210313671, 3336571891, 3584528711,
   113926993, 338241895, 666307205, 773529912, 1294757372,
   1396182291, 1695183700, 1986661051, 2177026350, 2456956037,
   2730485921, 2820302411, 3259730800, 3345764771, 3516065817,
   3600352804, 4094571909, 275423344, 430227734, 506948616,
   659060556, 883997877, 958139571, 1322822218, 1537002063,
   1747873779, 1955562222, 2024104815, 2227730452, 2361852424,
   2428436474, 2756734187, 3204031479, 3329325298]

def sha256H0 : List Nat :=
  [1779033703, 3144134277, 1013904242, 2773480762,
   1359893119, 2600822924, 528734635, 1541459225]

def beBytes (n val : Nat) : List Nat :=
  (List.range n).map (fun i => (val >>> (8 * (n - 1 - i))) % 256)

def sha256pad (msg : List Nat) : List Nat :=
  let len := msg.length
  let padZeros := (119 - len % 64) % 64
  msg ++ [0x80] ++ List.replicate padZeros 0 ++ beBytes 8 (len * 8)

def chunksOf64 (l : List Nat) : List (List Nat) :=
  if h : l = [] then [] else l.take 64 :: chunksOf64 (l.drop 64)
termination_by l.length
decreasing_by
  simp only [List.length_drop]
  exact Nat.sub_lt (List.length_pos.mpr h) (by omega)

def words32 (block : List Nat) : List Nat :=
  (List.range 16).map fun i =>
    (block.getD (4 * i) 0) <<< 24 + (block.getD (4 * i + 1) 0) <<< 16 +
    (block.getD (4 * i + 2) 0) <<< 8 + block.getD (4 * i + 3) 0

def sigma0 (x : Nat) : Nat := rotr32 7 x ^^^ rotr32 18 x ^^^ (x >>> 3)

def sigma1 (x : Nat) : Nat := rotr32 17 x ^^^ rotr32 19 x ^^^ (x >>> 10)

def bigSigma0 (x : Nat) : Nat := rotr32 2 x ^^^ rotr32 13 x ^^^ rotr32 22 x

def bigSigma1 (x : Nat) : Nat := rotr32 6 x ^^^ rotr32 11 x ^^^ rotr32 25 x

def msgSchedule (w16 : List Nat) : List Nat :=
  (List.range 48).foldl
    (fun w _ =>
      let i := w.length
      w ++ [(sigma1 (w.getD (i - 2) 0) + w.getD (i - 7) 0 +
             sigma0 (w.getD (i - 15) 0) + w.getD (i - 16) 0) % 2 ^ 32])
    w16

def sha256compress (st : List Nat) (w : List Nat) : List Nat :=
  let fin := (List.range 64).foldl
    (fun s i =>
      match s with
      | [a, b, c, d, e, f, g, h] =>
        let t1 := (h + bigSigma1 e + ((e &&& f) ^^^ ((2 ^ 32 - 1 - e) &&& g)) +
                   sha256K.getD i 0 + w.getD i 0) % 2 ^ 32
        let t2 := (bigSigma0 a + ((a &&& b) ^^^ (a &&& c) ^^^ (b &&& c))) % 2 ^ 32
        [(t1 + t2) % 2 ^ 32, a, b, c, (d + t1) % 2 ^ 32, e, f, g]
      | _ => s)
    st
  (st.zip fin).map fun p => (p.1 + p.2) % 2 ^ 32

def sha256 (msg : List Nat) : List Nat :=
  let blocks := chunksOf64 (sha256pad msg)
  let hfin := blocks.foldl (fun st blk => sha256compress st (msgSchedule (words32 blk))) sha256H0
  (hfin.map (beBytes 4)).flatten

def utf8EncodeCharNat (c : Nat) : List Nat :=
  if c < 0x80 then [c]
  else if c < 0x800 then [0xC0 + c / 0x40, 0x80 + c % 0x40]
  else if c < 0x10000 then
    [0xE0 + c / 0x1000, 0x80 + c / 0x40 % 0x40, 0x80 + c % 0x40]
  else
    [0xF0 + c / 0x40000, 0x80 + c / 0x1000 % 0x40, 0x80 + c / 0x40 % 0x40, 0x80 + c % 0x40]

def utf8Bytes (s : String) : List Nat :=
  (s.toList.map fun c => utf8EncodeCharNat c.toNat).flatten

def hexDigit (n : Nat) : Char :=
  if n < 10 then Char.ofNat (48 + n) else Char.ofNat (87 + n)

def hexOfByte (b : Nat) : List Char := [hexDigit (b / 16), hexDigit (b % 16)]

/-- HashCode generates a hash from a code body: the first 16 hex characters of
the SHA-256 digest of its UTF-8 bytes (`parser.HashCode` in
`pkg/parser/types.go`). -/
def HashCode (body : String) : String :=
  String.mk ((((sha256 (utf8Bytes body)).map hexOfByte).flatten).take 16)

/-! ## pkg/parser/types.go: the record types -/

/-- ElementType is a string-typed enumeration (`type ElementType string`). -/
abbrev ElementType := String

def TypeFunction : ElementType := "function"

def TypeClass : ElementType := "class"

def TypeInterface : ElementType := "interface"

def TypeType : ElementType := "type"

def TypeStruct : ElementType := "struct"

def TypeVariable : ElementType := "variable"

/-- Parameter mirrors `parser.Parameter`; `type`, `default`, `optional` carry
the `omitempty` JSON option. -/
structure Parameter where
  name : String
  type : String
  default : String
  optional : Bool
deriving Repr, DecidableEq

/-- CodeElement mirrors `parser.CodeElement` field-for-field, in declaration
order.  Go's `Extends` field is called `extends_` because `extends` is a Lean
keyword; Go's `time.Time` stamp `IndexedAt` is modelled as its serialized
string form. -/
structure CodeElement where
  type : ElementType
  name : String
  file : String
  line : Int
  endLine : Int
  hash : String
  params : List Parameter
  returns : String
  async : Bool
  generator : Bool
  methods : List String
  extends_ : String
  implements : List String
  fields : List String
  body : String
  docstring : String
  imports : List String
  exports : Bool
  language : String
  indexedAt : String
deriving Repr, DecidableEq

/-- The zero value of `parser.CodeElement`, as produced by `var element
parser.CodeElement` before `json.Unmarshal` fills it in. -/
def zeroElement : CodeElement :=
  { type := "", name := "", file := "", line := 0, endLine := 0, hash := "",
    params := [], returns := "", async := false, generator := false,
    methods := [], extends_ := "", implements := [], fields := [], body := "",
    docstring := "", imports := [], exports := false, language := "",
    indexedAt := "" }

/-- The zero value of `parser.Parameter`. -/
def zeroParameter : Parameter := { name := "", type := "", default := "", optional := false }

/-! ## encoding/json for these record types

A JSON value.  `num` carries an `Int`: every number the system itself writes
is an integer, and `json.Unmarshal` of a non-integral number into an `int`
field fails, which the store readers treat the same as any malformed line. -/

inductive Json where
  | str : String → Json
  | num : Int → Json
  | bool : Bool → Json
  | null : Json
  | arr : List Json → Json
  | obj : List (String × Json) → Json

/-- Marshal of one optional string field under `omitempty`: omitted when
empty. -/
def optStr (k v : String) : List (String × Json) :=
  if v = "" then [] else [(k, Json.str v)]

/-- Marshal of one optional bool field under `omitempty`: omitted when
false. -/
def optBool (k : String) (v : Bool) : List (String × Json) :=
  if v = false then [] else [(k, Json.bool v)]

/-- Marshal of one optional string-list field under `omitempty`: omitted when
empty. -/
def optStrArr (k : String) (v : List String) : List (String × Json) :=
  if v = [] then [] else [(k, Json.arr (v.map Json.str))]

/-- Marshal of `parser.Parameter`, in struct field order with the tags of the
source (`name`, then `type,omitempty`, `default,omitempty`,
`optional,omitempty`). -/
def marshalParameter (p : Parameter) : Json :=
  Json.obj ([("name", Json.str p.name)] ++ optStr "type" p.type ++
    optStr "default" p.default ++ optBool "optional" p.optional)

/-- Marshal of `parser.CodeElement`: one JSON object, fields in struct
declaration order, `omitempty` fields omitted when zero, exactly as
`json.NewEncoder(...).Encode` emits it. -/
def marshalCodeElement (el : CodeElement) : Json :=
  Json.obj
    ([("type", Json.str el.type), ("name", Json.str el.name),
      ("file", Json.str el.file), ("line", Json.num el.line),
      ("endLine", Json.num el.endLine), ("hash", Json.str el.hash)] ++
     (if el.params = [] then []
      else [("params", Json.arr (el.params.map marshalParameter))]) ++
     optStr "returns" el.returns ++
     optBool "async" el.async ++
     optBool "generator" el.generator ++
     optStrArr "methods" el.methods ++
     optStr "extends" el.extends_ ++
     optStrArr "implements" el.implements ++
     optStrArr "fields" el.fields ++
     [("body", Json.str el.body)] ++
     optStr "docstring" el.docstring ++
     optStrArr "imports" el.imports ++
     optBool "exports" el.exports ++
     [("language", Json.str el.language), ("indexedAt", Json.str el.indexedAt)])

/-- Unmarshal of a JSON array into `[]string`: every element must be a string
(a JSON `null` element leaves the zero value `""`); anything else is a type
mismatch, which `json.Unmarshal` reports as an error. -/
def decodeStrList : List Json → Option (List String)
  | [] => some []
  | Json.str s :: rest => (decodeStrList rest).map (s :: ·)
  | Json.null :: rest => (decodeStrList rest).map ("" :: ·)
  | _ :: _ => none

/-- One key/value assignment of `json.Unmarshal` into a `Parameter`: known
keys assign the matching field (string fields require a JSON string, the bool
field a JSON bool; `null` leaves the field untouched), unknown keys are
ignored, and a type mismatch is an error. -/
def applyParamKV (p : Parameter) (k : String) (v : Json) : Option Parameter :=
  if k = "name" then
    match v with
    | Json.str s => some { p with name := s }
    | Json.null => some p
    | _ => none
  else if k = "type" then
    match v with
    | Json.str s => some { p with type := s }
    | Json.null => some p
    | _ => none
  else if k = "default" then
    match v with
    | Json.str s => some { p with default := s }
    | Json.null => some p
    | _ => none
  else if k = "optional" then
    match v with
    | Json.bool b => some { p with optional := b }
    | Json.null => some p
    | _ => none
  else some p

/-- Fold of `applyParamKV` over an object's keys, in object order (later
duplicate keys overwrite earlier ones, as in `encoding/json`). -/
def applyParamKVs (p : Parameter) : List (String × Json) → Option Parameter
  | [] => some p
  | (k, v) :: rest =>
    match applyParamKV p k v with
    | none => none
    | some p' => applyParamKVs p' rest

/-- Unmarshal of a JSON value into `parser.Parameter`: an object assigns keys
over the zero value, `null` leaves the zero value, anything else is a type
mismatch. -/
def unmarshalParameter : Json → Option Parameter
  | Json.obj kvs => applyParamKVs zeroParameter kvs
  | Json.null => some zeroParameter
  | _ => none

/-- Unmarshal of a JSON array into `[]Parameter`. -/
def decodeParamList : List Json → Option (List Parameter)
  | [] => some []
  | j :: rest =>
    match unmarshalParameter j, decodeParamList rest with
    | some p, some ps => some (p :: ps)
    | _, _ => none

/-- One key/value assignment of `json.Unmarshal` into a `CodeElement`,
mirroring the struct's JSON tags; unknown keys are ignored, `null` values
leave the field untouched, type mismatches are errors.  Key matching is
modelled exact-case; Go additionally accepts a case-insensitive fallback,
which the encoder's exactly-cased output never exercises. -/
def applyKV (el : CodeElement) (k : String) (v : Json) : Option CodeElement :=
  if k = "type" then
    match v with
    | Json.str s => some { el with type := s }
    | Json.null => some el
    | _ => none
  else if k = "name" then
    match v with
    | Json.str s => some { el with name := s }
    | Json.null => some el
    | _ => none
  else if k = "file" then
    match v with
    | Json.str s => some { el with file := s }
    | Json.null => some el
    | _ => none
  else if k = "line" then
    match v with
    | Json.num n => some { el with line := n }
    | Json.null => some el
    | _ => none
  else if k = "endLine" then
    match v with
    | Json.num n => some { el with endLine := n }
    | Json.null => some el
    | _ => none
  else if k = "hash" then
    match v with
    | Json.str s => some { el with hash := s }
    | Json.null => some el
    | _ => none
  else if k = "params" then
    match v with
    | Json.arr js => (decodeParamList js).map (fun ps => { el with params := ps })
    | Json.null => some el
    | _ => none
  else if k = "returns" then
    match v with
    | Json.str s => some { el with returns := s }
    | Json.null => some el
    | _ => none
  else if k = "async" then
    match v with
    | Json.bool b => some { el with async := b }
    | Json.null => some el
    | _ => none
  else if k = "generator" then
    match v with
    | Json.bool b => some { el with generator := b }
    | Json.null => some el
    | _ => none
  else if k = "methods" then
    match v with
    | Json.arr js => (decodeStrList js).map (fun l => { el with methods := l })
    | Json.null => some el
    | _ => none
  else if k = "extends" then
    match v with
    | Json.str s => some { el with extends_ := s }
    | Json.null => some el
    | _ => none
  else if k = "implements" then
    match v with
    | Json.arr js => (decodeStrList js).map (fun l => { el with implements := l })
    | Json.null => some el
    | _ => none
  else if k = "fields" then
    match v with
    | Json.arr js => (decodeStrList js).map (fun l => { el with fields := l })
    | Json.null => some el
    | _ => none
  else if k = "body" then
    match v with
    | Json.str s => some { el with body := s }
    | Json.null => some el
    | _ => none
  else if k = "docstring" then
    match v with
    | Json.str s => some { el with docstring := s }
    | Json.null => some el
    | _ => none
  else if k = "imports" then
    match v with
    | Json.arr js => (decodeStrList js).map (fun l => { el with imports := l })
    | Json.null => some el
    | _ => none
  else if k = "exports" then
    match v with
    | Json.bool b => some { el with exports := b }
    | Json.null => some el
    | _ => none
  else if k = "language" then
    match v with
    | Json.str s => some { el with language := s }
    | Json.null => some el
    | _ => none
  else if k = "indexedAt" then
    match v with
    | Json.str s => some { el with indexedAt := s }
    | Json.null => some el
    | _ => none
  else some el

/-- Fold of `applyKV` over an object's keys, in object order. -/
def applyKVs (el : CodeElement) : List (String × Json) → Option CodeElement
  | [] => some el
  | (k, v) :: rest =>
    match applyKV el k v with
    | none => none
    | some el' => applyKVs el' rest

/-- Unmarshal of a JSON value into `parser.CodeElement`. -/
def unmarshalCodeElement : Json → Option CodeElement
  | Json.obj kvs => applyKVs zeroElement kvs
  | Json.null => some zeroElement
  | _ => none


/-! ## pkg/parser (go parser file): AST model and the extractor

The shapes of `go/ast` nodes that the extractor inspects.  `GoExpr` covers
exactly the expression forms `exprToString` distinguishes; every other
expression shape is `other` (rendered `"unknown"`). -/

inductive GoExpr where
  | ident : String → GoExpr
  | star : GoExpr → GoExpr
  | array : GoExpr → GoExpr
  | selector : GoExpr → String → GoExpr
  | mapT : GoExpr → GoExpr → GoExpr
  | interfaceT : GoExpr
  | funcT : GoExpr
  | other : GoExpr
deriving Repr, DecidableEq

/-- An `ast.Field`: zero or more names sharing one type expression. -/
structure GoField where
  names : List String
  type : GoExpr
deriving Repr, DecidableEq

/-- The underlying shape of a `TypeSpec`'s type, as classified by the
`switch` in `extractType`: struct-shaped, interface-shaped, or anything
else. -/
inductive TypeShape where
  | structT : Option (List GoField) → TypeShape
  | interfaceT : Option (List GoField) → TypeShape
  | otherT : TypeShape
deriving Repr, DecidableEq

/-- An `ast.TypeSpec` inside a `GenDecl`. -/
structure TypeSpec where
  name : String
  type : TypeShape
deriving Repr, DecidableEq

/-- An `ast.GenDecl` holding type specs; `pos`/`endPos` are the byte offsets
(`token.Pos`, 1-based) of the whole declaration block. -/
structure GenDecl where
  doc : Option String
  specs : List TypeSpec
  pos : Int
  endPos : Int
deriving Repr, DecidableEq

/-- An `ast.FuncDecl`.  `name` is `Option` because the source nil-checks
`node.Name`; `recv` is the receiver `FieldList` (`none` for a bare
function); `params`/`results` are the signature's field lists. -/
structure FuncDecl where
  name : Option String
  recv : Option (List GoField)
  params : Option (List GoField)
  results : Option (List GoField)
  doc : Option String
  pos : Int
  endPos : Int
deriving Repr, DecidableEq

/-- A declaration visited by the `ast.Inspect` walk in `Parse`. -/
inductive Decl where
  | func : FuncDecl → Decl
  | gen : GenDecl → Decl
deriving Repr, DecidableEq

/-- A parsed `ast.File`: its declarations in depth-first order and the
paths it imports (still carrying the quotes of the source literal). -/
structure GoFile where
  decls : List Decl
  imports : List String
deriving Repr, DecidableEq

/-- The line of a valid `token.Pos` in the file set built over `content`:
one plus the number of newlines strictly before the offset
(`fset.Position(pos).Line`). -/
def lineOfPos (content : String) (pos : Int) : Int :=
  1 + (((content.toList.take (pos - 1).toNat).filter (· == '\n')).length : Int)

/-- FieldList.NumFields: the number of parameters a field list names (an
unnamed field counts once). -/
def numFields (fl : List GoField) : Nat :=
  (fl.map fun f => max f.names.length 1).sum

/-- exprToString converts an expression to its canonical string form. -/
def exprToString : GoExpr → String
  | GoExpr.ident n => n
  | GoExpr.star x => "*" ++ exprToString x
  | GoExpr.array elt => "[]" ++ exprToString elt
  | GoExpr.selector x sel => exprToString x ++ "." ++ sel
  | GoExpr.mapT k v => "map[" ++ exprToString k ++ "]" ++ exprToString v
  | GoExpr.interfaceT => "interface\x7b\x7d"
  | GoExpr.funcT => "func"
  | GoExpr.other => "unknown"

/-- getReceiverType extracts the receiver's base type name, unwrapping
pointer indirection; any other shape is `"unknown"`. -/
def getReceiverType : GoExpr → String
  | GoExpr.ident n => n
  | GoExpr.star x => getReceiverType x
  | _ => "unknown"

/-- extractDocstring: a nil comment group yields `""`, otherwise its text. -/
def extractDocstring (doc : Option String) : String := doc.getD ""

/-- extractParams: one `Parameter` per declared name, `_` for an unnamed
parameter, in field-list order. -/
def extractParams (fieldsOpt : Option (List GoField)) : List Parameter :=
  match fieldsOpt with
  | none => []
  | some fl =>
    fl.foldl
      (fun acc f =>
        let typeStr := exprToString f.type
        if f.names = [] then
          acc ++ [{ name := "_", type := typeStr, default := "", optional := false }]
        else
          acc ++ f.names.map fun n =>
            { name := n, type := typeStr, default := "", optional := false })
      []

/-- Join a list of strings with a separator (`strings.Join`). -/
def joinSep (sep : String) : List String → String
  | [] => ""
  | [x] => x
  | x :: rest => x ++ sep ++ joinSep sep rest

/-- extractReturns renders the result field list: empty for no results, the
single rendering for one, a parenthesized comma-join otherwise. -/
def extractReturns (fieldsOpt : Option (List GoField)) : String :=
  match fieldsOpt with
  | none => ""
  | some [] => ""
  | some fl =>
    let returns := fl.foldl
      (fun acc f =>
        let typeStr := exprToString f.type
        if f.names.length > 0 then
          acc ++ f.names.map (fun n => n ++ " " ++ typeStr)
        else acc ++ [typeStr])
      []
    if returns.length = 1 then returns.headD "" else "(" ++ joinSep ", " returns ++ ")"

/-- extractFields collects a struct's named field names in order. -/
def extractFields (fieldsOpt : Option (List GoField)) : List String :=
  match fieldsOpt with
  | none => []
  | some fl =>
    fl.foldl (fun acc f => if f.names.length > 0 then acc ++ f.names else acc) []

/-- extractInterfaceMethods collects an interface's declared method names in
order. -/
def extractInterfaceMethods (fieldsOpt : Option (List GoField)) : List String :=
  match fieldsOpt with
  | none => []
  | some fl =>
    fl.foldl (fun acc f => if f.names.length > 0 then acc ++ f.names else acc) []

/-- Trim of leading and trailing double quotes (`strings.Trim(value, quote)`),
as applied to an import path literal. -/
def trimQuotes (s : String) : String :=
  String.mk (((s.toList.dropWhile (· == '"')).reverse.dropWhile (· == '"')).reverse)

/-- extractImports: every import path of the file, quotes trimmed. -/
def extractImports (file : GoFile) : List String :=
  file.imports.foldl (fun acc v => acc ++ [trimQuotes v]) []

/-- extractNodeBody slices the declaration's byte range out of the source
buffer; a zero position, a negative start index, an out-of-bounds end index
or an empty/backwards range yields `""`. -/
def extractNodeBody (start endp : Int) (content : String) : String :=
  if start = 0 ∨ endp = 0 then ""
  else
    let startIdx := start - 1
    let endIdx := endp - 1
    if startIdx < 0 ∨ endIdx > (content.length : Int) ∨ startIdx ≥ endIdx then ""
    else String.mk ((content.toList.drop startIdx.toNat).take (endIdx - startIdx).toNat)

/-- token.IsExported via `ast.IsExported`: whether the name's first character
is an upper-case letter (ASCII model of `unicode.IsUpper` on the first
rune; an empty name is not exported). -/
def isExported (name : String) : Bool :=
  match name.toList with
  | [] => false
  | c :: _ => c.isUpper

/-- extractFunction builds the function/method element: a method (receiver
list present and naming at least one parameter) is named
`<receiverType>.<methodName>`; `exported` comes from the bare method name.
`now` stands for the `time.Now()` stamp. -/
def extractFunction (node : FuncDecl) (filePath content : String)
    (imports : List String) (now : String) : Option CodeElement :=
  match node.name with
  | none => none
  | some nm =>
    let body := extractNodeBody node.pos node.endPos content
    let name :=
      match node.recv with
      | none => nm
      | some fl =>
        if 0 < numFields fl then
          match fl with
          | [] => nm
          | f :: _ => getReceiverType f.type ++ "." ++ nm
        else nm
    some
      { type := TypeFunction, name := name, file := filePath,
        line := lineOfPos content node.pos, endLine := lineOfPos content node.endPos,
        hash := HashCode body, params := extractParams node.params,
        returns := extractReturns node.results, async := false, generator := false,
        methods := [], extends_ := "", implements := [], fields := [], body := body,
        docstring := extractDocstring node.doc, imports := imports,
        exports := isExported nm, language := "go", indexedAt := now }

/-- extractType builds a struct, interface or generic type element; location,
body and hash all come from the enclosing `GenDecl`, not the individual
spec. -/
def extractType (spec : TypeSpec) (decl : GenDecl) (filePath content : String)
    (now : String) : CodeElement :=
  let body := extractNodeBody decl.pos decl.endPos content
  let base : CodeElement :=
    { type := "", name := spec.name, file := filePath,
      line := lineOfPos content decl.pos, endLine := lineOfPos content decl.endPos,
      hash := HashCode body, params := [], returns := "", async := false,
      generator := false, methods := [], extends_ := "", implements := [],
      fields := [], body := body, docstring := extractDocstring decl.doc,
      imports := [], exports := isExported spec.name, language := "go",
      indexedAt := now }
  match spec.type with
  | TypeShape.structT fields =>
    { base with type := TypeStruct, fields := extractFields fields, methods := [] }
  | TypeShape.interfaceT methods =>
    { base with type := TypeInterface, methods := extractInterfaceMethods methods }
  | TypeShape.otherT => { base with type := TypeType }

/-- Parse walks the file's declarations in order, emitting one element per
function declaration (when its name node is present) and one per type spec
of each general declaration. -/
def parseGoFile (file : GoFile) (filePath content : String) (now : String) :
    List CodeElement :=
  let imports := extractImports file
  file.decls.foldl
    (fun acc d =>
      match d with
      | Decl.func fd =>
        match extractFunction fd filePath content imports now with
        | none => acc
        | some el => acc ++ [el]
      | Decl.gen gd =>
        acc ++ gd.specs.map fun s => extractType s gd filePath content now)
    []

/-! ## pkg/indexer/indexer.go: the content index

One line of the store file: a line holding a JSON value, or a line that is
not valid JSON at all (`garbage` carries the raw text). -/

inductive Line where
  | json : Json → Line
  | garbage : String → Line

/-- Deserialization of one store line, as `json.Unmarshal` into a fresh
`CodeElement`: a non-JSON line or a type mismatch fails. -/
def decodeLine : Line → Option CodeElement
  | Line.json j => unmarshalCodeElement j
  | Line.garbage _ => none

/-- The indexer's state: the dedup flag, the in-memory hash set (a list with
set semantics standing for `map[string]bool`), and the store file
(`none` = file absent).  The `indexPath` string and the mutex of the Go
struct are externalized: the file itself is carried here, and all modelled
histories are single-writer. -/
structure Indexer where
  indexPath : String
  deduplication : Bool
  hashSet : List String
  file : Option (List Line)

/-- New creates an indexer with an empty hash set over a store path; the
store file at that path may or may not exist yet. -/
def Indexer.new (indexPath : String) (dedup : Bool) (file : Option (List Line)) : Indexer :=
  { indexPath := indexPath, deduplication := dedup, hashSet := [], file := file }

/-- The scan loop of `loadExistingHashes`: record every well-formed line's
hash, skip malformed lines. -/
def loadLoop : List Line → List String → List String
  | [], hs => hs
  | l :: rest, hs =>
    match decodeLine l with
    | none => loadLoop rest hs
    | some el => loadLoop rest (el.hash :: hs)

/-- loadExistingHashes: a missing file loads nothing; otherwise every
well-formed record's hash is added to the in-memory set. -/
def Indexer.loadExistingHashes (idx : Indexer) : Indexer :=
  match idx.file with
  | none => idx
  | some lines => { idx with hashSet := loadLoop lines idx.hashSet }

/-- Init ensures the store directory exists (a no-op here) and, in dedup
mode, loads the existing hashes. -/
def Indexer.Init (idx : Indexer) : Indexer :=
  if idx.deduplication then idx.loadExistingHashes else idx

/-- The element loop of `Index`: in dedup mode an element whose hash is
already in the set is skipped; otherwise it joins `toWrite` and its hash
joins the set. -/
def indexLoop (dedup : Bool) : List CodeElement → List CodeElement → List String →
    List CodeElement × List String
  | [], toWrite, hs => (toWrite, hs)
  | el :: rest, toWrite, hs =>
    if dedup && hs.contains el.hash then indexLoop dedup rest toWrite hs
    else indexLoop dedup rest (toWrite ++ [el]) (el.hash :: hs)

/-- appendToIndex serializes each element onto the end of the store file,
creating the file when absent (`O_CREATE|O_APPEND`). -/
def appendToIndex (file : Option (List Line)) (els : List CodeElement) :
    Option (List Line) :=
  some (file.getD [] ++ els.map fun el => Line.json (marshalCodeElement el))

/-- Index appends the non-duplicate elements to the store and returns the
count actually written; when nothing survives the dedup filter the file is
not opened at all. -/
def Indexer.Index (idx : Indexer) (elements : List CodeElement) : Indexer × Nat :=
  let r := indexLoop idx.deduplication elements [] idx.hashSet
  if 0 < r.1.length then
    ({ idx with hashSet := r.2, file := appendToIndex idx.file r.1 }, r.1.length)
  else ({ idx with hashSet := r.2 }, r.1.length)

/-- The elements the current `Index` call would write, before dedup-surviving
records reach the file. -/
def Indexer.toWrite (idx : Indexer) (elements : List CodeElement) : List CodeElement :=
  (indexLoop idx.deduplication elements [] idx.hashSet).1

/-- The scan loop of `ReadAll`: keep every line that deserializes, in file
order, silently skipping the rest. -/
def readLoop : List Line → List CodeElement → List CodeElement
  | [], acc => acc
  | l :: rest, acc =>
    match decodeLine l with
    | none => readLoop rest acc
    | some el => readLoop rest (acc ++ [el])

/-- ReadAll: a missing store file is an empty result, not an error; otherwise
the well-formed records in file order. -/
def Indexer.ReadAll (idx : Indexer) : Except String (List CodeElement) :=
  match idx.file with
  | none => Except.ok []
  | some lines => Except.ok (readLoop lines [])

/-- The records of a store file, as a plain list. -/
def readAllList (file : Option (List Line)) : List CodeElement :=
  match file with
  | none => []
  | some lines => readLoop lines []

/-- The scan loop of `Search`: decode each line, keep the records satisfying
the predicate, in file order. -/
def searchLoop (p : CodeElement → Bool) : List Line → List CodeElement → List CodeElement
  | [], acc => acc
  | l :: rest, acc =>
    match decodeLine l with
    | none => searchLoop p rest acc
    | some el => if p el then searchLoop p rest (acc ++ [el]) else searchLoop p rest acc

/-- Search applies a boolean predicate over every record read from the store,
in storage order; a missing file is an empty result. -/
def Indexer.Search (idx : Indexer) (p : CodeElement → Bool) :
    Except String (List CodeElement) :=
  match idx.file with
  | none => Except.ok []
  | some lines => Except.ok (searchLoop p lines [])

/-- Index statistics; the Go `map` aggregations are modelled as counting
functions. -/
structure Stats where
  totalElements : Nat
  byType : ElementType → Nat
  byLanguage : String → Nat
  byFile : String → Nat
  totalSize : Nat

/-- GetStats recomputes the statistics from a full `ReadAll`. -/
def Indexer.GetStats (idx : Indexer) : Except String Stats :=
  match idx.ReadAll with
  | Except.error e => Except.error e
  | Except.ok elements =>
    Except.ok
      { totalElements := elements.length,
        byType := fun t => (elements.filter fun e => e.type == t).length,
        byLanguage := fun l => (elements.filter fun e => e.language == l).length,
        byFile := fun f => (elements.filter fun e => e.file == f).length,
        totalSize := (elements.map fun e => e.body.length).sum }

/-- Clear resets the in-memory hash set and deletes the store file if
present. -/
def Indexer.Clear (idx : Indexer) : Indexer :=
  { idx with hashSet := [], file := none }

/-- Insertion into the `unique` map of `Rebuild`, keyed by hash with
last-value-wins, enumerated in key-insertion order (the Go `map` iteration
order is unspecified; this deterministic enumeration is the model's
choice). -/
def upsert : List (String × CodeElement) → CodeElement → List (String × CodeElement)
  | [], el => [(el.hash, el)]
  | (k, v) :: rest, el =>
    if k = el.hash then (k, el) :: rest else (k, v) :: upsert rest el

/-- The `unique` map of `Rebuild` after inserting every stored record. -/
def uniqueFold (els : List CodeElement) : List (String × CodeElement) :=
  els.foldl upsert []

/-- Rebuild reads every record, keeps one per hash, clears the store,
reinitializes and re-appends the unique set. -/
def Indexer.Rebuild (idx : Indexer) : Indexer :=
  let elements := readAllList idx.file
  let unique := uniqueFold elements
  let idx1 := idx.Clear.Init
  let uniqueElements := unique.map (·.2)
  (idx1.Index uniqueElements).1

/-! ## cmd front end: the search predicate of `cmdSearch` -/

/-- Whether the first list is an initial segment of the second
(the scan step of `strings.Contains`). -/
def leadsWith : List Char → List Char → Bool
  | [], _ => true
  | _ :: _, [] => false
  | a :: as, b :: bs => a == b && leadsWith as bs

/-- Whether the first list occurs contiguously inside the second. -/
def occursIn (sub : List Char) : List Char → Bool
  | [] => leadsWith sub []
  | c :: rest => leadsWith sub (c :: rest) || occursIn sub rest

/-- strings.Contains: whether `sub` is a substring of `s`. -/
def strContains (s sub : String) : Bool := occursIn sub.toList s.toList

/-- strings.ToLower, character by character (ASCII model of the rune map). -/
def toLowerStr (s : String) : String := String.mk (s.toList.map Char.toLower)

/-- The predicate `cmdSearch` passes to `Indexer.Search`: the lower-cased
query occurs in the lower-cased name or the lower-cased body. -/
def cmdSearchPred (query : String) (el : CodeElement) : Bool :=
  let lowerQuery := toLowerStr query
  strContains (toLowerStr el.name) lowerQuery || strContains (toLowerStr el.body) lowerQuery

/-! ## Derived state notions used by the verification -/

/-- The hashes of the records a store currently holds, in store order. -/
def recordHashes (idx : Indexer) : List String :=
  (readAllList idx.file).map CodeElement.hash

/-- The store holds at most one record per hash, and the in-memory set
covers every stored hash. -/
def GoodIdx (idx : Indexer) : Prop :=
  (recordHashes idx).Nodup ∧ ∀ h ∈ recordHashes idx, h ∈ idx.hashSet

/-- One operation of the single writer: re-running `Init`, or an `Index`
call over a batch of elements. -/
inductive Op where
  | init : Op
  | add : List CodeElement → Op

/-- Run a sequence of operations left to right. -/
def runOps (idx : Indexer) : List Op → Indexer
  | [] => idx
  | Op.init :: rest => runOps idx.Init rest
  | Op.add els :: rest => runOps (idx.Index els).1 rest

/-- A fresh deduplicating indexer over an empty (absent) store, after
`Init`. -/
def freshDedup : Indexer := (Indexer.new ".code-bridge/codebase.jsonl" true none).Init

/-- Every pair of the assoc list is keyed by its record's hash. -/
def coherent (l : List (String × CodeElement)) : Prop := ∀ p ∈ l, p.1 = p.2.hash

/-- The deduplicated record list Rebuild re-appends: one survivor per
distinct hash of the current store, in first-occurrence order with
last-occurrence values. -/
def uniqueElementsOf (idx : Indexer) : List CodeElement :=
  (uniqueFold (readAllList idx.file)).map (·.2)


/-! ## Concrete stores and batches used to exercise the theorems -/

/-- A synthetic record with a per-index name and hash. -/
def mkSample (i : Nat) : CodeElement :=
  { zeroElement with
    type := "function", name := "f" ++ toString i,
    file := "a.go", hash := "h" ++ toString i, body := "func f" ++ toString i,
    language := "go" }

/-- A batch of twenty records with pairwise distinct hashes. -/
def batch20 : List CodeElement := (List.range 20).map mkSample

/-- A record with several populated optional fields. -/
def sampleRecord : CodeElement :=
  { zeroElement with
    type := "function", name := "Add", file := "math.go",
    line := 3, endLine := 5, hash := "c0ffee", params := [
      { name := "a", type := "int", default := "", optional := false },
      { name := "b", type := "int", default := "", optional := false }],
    returns := "int", body := "func Add", language := "go", indexedAt := "t0" }

/-- A store file holding two malformed lines around one good record. -/
def mixedStoreIdx : Indexer :=
  { indexPath := "idx.jsonl", deduplication := true, hashSet := [],
    file := some [Line.garbage "not json at all",
      Line.json (marshalCodeElement sampleRecord), Line.garbage "trunca"] }

/-- An indexer whose hash set already knows `"dup"`, with one stored record
under that hash. -/
def dupKnownIdx : Indexer :=
  { indexPath := "idx.jsonl", deduplication := true, hashSet := ["dup"],
    file := some [Line.json (marshalCodeElement { zeroElement with name := "old", hash := "dup" })] }

/-- A record sharing the already-known hash of `dupKnownIdx`. -/
def dupRecord : CodeElement := { zeroElement with name := "later", hash := "dup" }

/-- The three indexed functions of the search scenario. -/
def qwenEl : CodeElement :=
  { zeroElement with
    type := "function", name := "generateQwenCommitMessage",
    file := "commit.go", hash := "sq", body := "func generateQwenCommitMessage() string",
    language := "go" }

def claudeEl : CodeElement :=
  { zeroElement with
    type := "function", name := "generateClaudeCommitMessage",
    file := "commit.go", hash := "sc", body := "func generateClaudeCommitMessage() string",
    language := "go" }

def summaryEl : CodeElement :=
  { zeroElement with
    type := "function", name := "generateSummary",
    file := "commit.go", hash := "ss", body := "func generateSummary() string",
    language := "go" }

/-- The index of the search scenario: a fresh deduplicating index holding
exactly the three functions. -/
def searchScenarioIdx : Indexer := (freshDedup.Index [qwenEl, claudeEl, summaryEl]).1

/-- The span-degeneracy condition of the edge-case policy: an empty or
backwards range, a non-positive position, or an end offset past the source
buffer. -/
def degenerateSpan (start endp : Int) (content : String) : Prop :=
  start ≥ endp ∨ start ≤ 0 ∨ endp ≤ 0 ∨ (content.length : Int) < endp - 1

/-- The declaration `func Add(a, b int) int` of the two-function scenario. -/
def addFuncDecl : FuncDecl :=
  { name := some "Add", recv := none,
    params := some [{ names := ["a", "b"], type := GoExpr.ident "int" }],
    results := some [{ names := [], type := GoExpr.ident "int" }],
    doc := none, pos := 12, endPos := 52 }

/-- The declaration `func (t *T) helper()` of the two-function scenario. -/
def helperFuncDecl : FuncDecl :=
  { name := some "helper",
    recv := some [{ names := ["t"], type := GoExpr.star (GoExpr.ident "T") }],
    params := some [], results := none, doc := none, pos := 54, endPos := 77 }

/-- The source text of the two-function scenario; the byte positions of the
two declarations match `addFuncDecl` and `helperFuncDecl`. -/
def addHelperContent : String :=
  "package p\n\nfunc Add(a, b int) int \x7b return a + b \x7d\n\nfunc (t *T) helper() \x7b\x7d\n"

/-- The parsed file of the two-function scenario. -/
def addHelperFile : GoFile :=
  { decls := [Decl.func addFuncDecl, Decl.func helperFuncDecl], imports := [] }

/-- The elements the extractor produces for the two-function scenario. -/
def addHelperElems (now : String) : List CodeElement :=
  parseGoFile addHelperFile "math.go" addHelperContent now

/-- A grouped `type (...)` declaration block holding two type specs. -/
def groupedDecl : GenDecl :=
  { doc := none,
    specs := [
      { name := "Alias1", type := TypeShape.otherT },
      { name := "Alias2", type := TypeShape.otherT }],
    pos := 12, endPos := 50 }

/-! ## Round-trip of the JSON serialization

Every record the indexer writes deserializes back to itself: omitted
`omitempty` fields come back as the zero value they were omitted for. -/

theorem applyParamKVs_cons (p : Parameter) (k : String) (v : Json) (rest : List (String × Json)) :
    applyParamKVs p ((k, v) :: rest) =
      match applyParamKV p k v with
      | none => none
      | some p' => applyParamKVs p' rest := rfl

theorem applyParamKVs_name (p : Parameter) (v : String) (rest : List (String × Json)) :
    applyParamKVs p (("name", Json.str v) :: rest) = applyParamKVs { p with name := v } rest := rfl

theorem applyParamKVs_type (p : Parameter) (v : String) (rest : List (String × Json))
    (h : p.type = "") :
    applyParamKVs p (optStr "type" v ++ rest) = applyParamKVs { p with type := v } rest := by
  by_cases hv : v = ""
  · subst hv
    simp only [optStr, if_pos rfl, List.nil_append]
    rw [← h]
    rfl
  · simp only [optStr, if_neg hv, List.singleton_append]
    rfl

theorem applyParamKVs_default (p : Parameter) (v : String) (rest : List (String × Json))
    (h : p.default = "") :
    applyParamKVs p (optStr "default" v ++ rest) = applyParamKVs { p with default := v } rest := by
  by_cases hv : v = ""
  · subst hv
    simp only [optStr, if_pos rfl, List.nil_append]
    rw [← h]
    rfl
  · simp only [optStr, if_neg hv, List.singleton_append]
    rfl

theorem applyParamKVs_optional (p : Parameter) (v : Bool) (rest : List (String × Json))
    (h : p.optional = false) :
    applyParamKVs p (optBool "optional" v ++ rest) = applyParamKVs { p with optional := v } rest := by
  by_cases hv : v = false
  · subst hv
    simp only [optBool, if_pos rfl, List.nil_append]
    rw [← h]
    rfl
  · simp only [optBool, if_neg hv, List.singleton_append]
    rfl

/-- A parameter marshalled with `omitempty` unmarshals back to itself. -/
theorem unmarshalParameter_marshal (p : Parameter) :
    unmarshalParameter (marshalParameter p) = some p := by
  rcases p with ⟨n, t, d, o⟩
  show applyParamKVs zeroParameter _ = _
  rw [show (([("name", Json.str n)] ++ optStr "type" t ++ optStr "default" d ++
        optBool "optional" o) : List (String × Json)) =
      ("name", Json.str n) :: (optStr "type" t ++ (optStr "default" d ++
        (optBool "optional" o ++ []))) by simp]
  rw [applyParamKVs_name, applyParamKVs_type _ _ _ rfl, applyParamKVs_default _ _ _ rfl,
    applyParamKVs_optional _ _ _ rfl]
  rfl

/-- Element-wise inverse for parameter arrays. -/
theorem decodeParamList_map (ps : List Parameter) :
    decodeParamList (ps.map marshalParameter) = some ps := by
  induction ps with
  | nil => rfl
  | cons p rest ih =>
    simp only [List.map_cons, decodeParamList, unmarshalParameter_marshal p, ih]

/-- Element-wise inverse for string arrays. -/
theorem decodeStrList_map (l : List String) :
    decodeStrList (l.map Json.str) = some l := by
  induction l with
  | nil => rfl
  | cons s rest ih => simp only [List.map_cons, decodeStrList, ih, Option.map_some']

theorem applyKVs_cons (el : CodeElement) (k : String) (v : Json) (rest : List (String × Json)) :
    applyKVs el ((k, v) :: rest) =
      match applyKV el k v with
      | none => none
      | some el' => applyKVs el' rest := rfl

theorem applyKVs_type (el : CodeElement) (v : String) (rest : List (String × Json)) :
    applyKVs el (("type", Json.str v) :: rest) = applyKVs { el with type := v } rest := rfl

theorem applyKVs_name (el : CodeElement) (v : String) (rest : List (String × Json)) :
    applyKVs el (("name", Json.str v) :: rest) = applyKVs { el with name := v } rest := rfl

theorem applyKVs_file (el : CodeElement) (v : String) (rest : List (String × Json)) :
    applyKVs el (("file", Json.str v) :: rest) = applyKVs { el with file := v } rest := rfl

theorem applyKVs_hash (el : CodeElement) (v : String) (rest : List (String × Json)) :
    applyKVs el (("hash", Json.str v) :: rest) = applyKVs { el with hash := v } rest := rfl

theorem applyKVs_body (el : CodeElement) (v : String) (rest : List (String × Json)) :
    applyKVs el (("body", Json.str v) :: rest) = applyKVs { el with body := v } rest := rfl

theorem applyKVs_language (el : CodeElement) (v : String) (rest : List (String × Json)) :
    applyKVs el (("language", Json.str v) :: rest) = applyKVs { el with language := v } rest := rfl

theorem applyKVs_indexedAt (el : CodeElement) (v : String) (rest : List (String × Json)) :
    applyKVs el (("indexedAt", Json.str v) :: rest) = applyKVs { el with indexedAt := v } rest := rfl

theorem applyKVs_line (el : CodeElement) (v : Int) (rest : List (String × Json)) :
    applyKVs el (("line", Json.num v) :: rest) = applyKVs { el with line := v } rest := rfl

theorem applyKVs_endLine (el : CodeElement) (v : Int) (rest : List (String × Json)) :
    applyKVs el (("endLine", Json.num v) :: rest) = applyKVs { el with endLine := v } rest := rfl

theorem applyKVs_returns (el : CodeElement) (v : String) (rest : List (String × Json))
    (h : el.returns = "") :
    applyKVs el (optStr "returns" v ++ rest) = applyKVs { el with returns := v } rest := by
  by_cases hv : v = ""
  · subst hv
    simp only [optStr, if_pos rfl, List.nil_append]
    rw [← h]
    rfl
  · simp only [optStr, if_neg hv, List.singleton_append]
    rfl

theorem applyKVs_docstring (el : CodeElement) (v : String) (rest : List (String × Json))
    (h : el.docstring = "") :
    applyKVs el (optStr "docstring" v ++ rest) = applyKVs { el with docstring := v } rest := by
  by_cases hv : v = ""
  · subst hv
    simp only [optStr, if_pos rfl, List.nil_append]
    rw [← h]
    rfl
  · simp only [optStr, if_neg hv, List.singleton_append]
    rfl

theorem applyKVs_extendsF (el : CodeElement) (v : String) (rest : List (String × Json))
    (h : el.extends_ = "") :
    applyKVs el (optStr "extends" v ++ rest) = applyKVs { el with extends_ := v } rest := by
  by_cases hv : v = ""
  · subst hv
    simp only [optStr, if_pos rfl, List.nil_append]
    rw [← h]
    rfl
  · simp only [optStr, if_neg hv, List.singleton_append]
    rfl

theorem applyKVs_async (el : CodeElement) (v : Bool) (rest : List (String × Json))
    (h : el.async = false) :
    applyKVs el (optBool "async" v ++ rest) = applyKVs { el with async := v } rest := by
  by_cases hv : v = false
  · subst hv
    simp only [optBool, if_pos rfl, List.nil_append]
    rw [← h]
    rfl
  · simp only [optBool, if_neg hv, List.singleton_append]
    rfl

theorem applyKVs_generator (el : CodeElement) (v : Bool) (rest : List (String × Json))
    (h : el.generator = false) :
    applyKVs el (optBool "generator" v ++ rest) = applyKVs { el with generator := v } rest := by
  by_cases hv : v = false
  · subst hv
    simp only [optBool, if_pos rfl, List.nil_append]
    rw [← h]
    rfl
  · simp only [optBool, if_neg hv, List.singleton_append]
    rfl

theorem applyKVs_exports (el : CodeElement) (v : Bool) (rest : List (String × Json))
    (h : el.exports = false) :
    applyKVs el (optBool "exports" v ++ rest) = applyKVs { el with exports := v } rest := by
  by_cases hv : v = false
  · subst hv
    simp only [optBool, if_pos rfl, List.nil_append]
    rw [← h]
    rfl
  · simp only [optBool, if_neg hv, List.singleton_append]
    rfl

theorem applyKVs_methods (el : CodeElement) (v : List String) (rest : List (String × Json))
    (h : el.methods = []) :
    applyKVs el (optStrArr "methods" v ++ rest) = applyKVs { el with methods := v } rest := by
  by_cases hv : v = []
  · subst hv
    simp only [optStrArr, if_pos rfl, List.nil_append]
    rw [← h]
    rfl
  · simp only [optStrArr, if_neg hv, List.singleton_append]
    have h1 : applyKV el "methods" (Json.arr (v.map Json.str)) = some { el with methods := v } := by
      show (decodeStrList (v.map Json.str)).map _ = _
      rw [decodeStrList_map]
      rfl
    rw [applyKVs_cons, h1]

theorem applyKVs_implements (el : CodeElement) (v : List String) (rest : List (String × Json))
    (h : el.implements = []) :
    applyKVs el (optStrArr "implements" v ++ rest) = applyKVs { el with implements := v } rest := by
  by_cases hv : v = []
  · subst hv
    simp only [optStrArr, if_pos rfl, List.nil_append]
    rw [← h]
    rfl
  · simp only [optStrArr, if_neg hv, List.singleton_append]
    have h1 : applyKV el "implements" (Json.arr (v.map Json.str)) = some { el with implements := v } := by
      show (decodeStrList (v.map Json.str)).map _ = _
      rw [decodeStrList_map]
      rfl
    rw [applyKVs_cons, h1]

theorem applyKVs_fields (el : CodeElement) (v : List String) (rest : List (String × Json))
    (h : el.fields = []) :
    applyKVs el (optStrArr "fields" v ++ rest) = applyKVs { el with fields := v } rest := by
  by_cases hv : v = []
  · subst hv
    simp only [optStrArr, if_pos rfl, List.nil_append]
    rw [← h]
    rfl
  · simp only [optStrArr, if_neg hv, List.singleton_append]
    have h1 : applyKV el "fields" (Json.arr (v.map Json.str)) = some { el with fields := v } := by
      show (decodeStrList (v.map Json.str)).map _ = _
      rw [decodeStrList_map]
      rfl
    rw [applyKVs_cons, h1]

theorem applyKVs_imports (el : CodeElement) (v : List String) (rest : List (String × Json))
    (h : el.imports = []) :
    applyKVs el (optStrArr "imports" v ++ rest) = applyKVs { el with imports := v } rest := by
  by_cases hv : v = []
  · subst hv
    simp only [optStrArr, if_pos rfl, List.nil_append]
    rw [← h]
    rfl
  · simp only [optStrArr, if_neg hv, List.singleton_append]
    have h1 : applyKV el "imports" (Json.arr (v.map Json.str)) = some { el with imports := v } := by
      show (decodeStrList (v.map Json.str)).map _ = _
      rw [decodeStrList_map]
      rfl
    rw [applyKVs_cons, h1]

theorem applyKVs_params (el : CodeElement) (v : List Parameter) (rest : List (String × Json))
    (h : el.params = []) :
    applyKVs el ((if v = [] then []
      else [("params", Json.arr (v.map marshalParameter))]) ++ rest) =
      applyKVs { el with params := v } rest := by
  by_cases hv : v = []
  · subst hv
    simp only [if_pos rfl, List.nil_append]
    rw [← h]
    rfl
  · simp only [if_neg hv, List.singleton_append]
    have h1 : applyKV el "params" (Json.arr (v.map marshalParameter)) =
        some { el with params := v } := by
      show (decodeParamList (v.map marshalParameter)).map _ = _
      rw [decodeParamList_map]
      rfl
    rw [applyKVs_cons, h1]

/-- Round-trip: a code element marshalled by the indexer's encoder
unmarshals back to exactly itself; every omitted `omitempty` field is read
back as its zero value. -/
theorem unmarshalCodeElement_marshal (el : CodeElement) :
    unmarshalCodeElement (marshalCodeElement el) = some el := by
  rcases el with ⟨ty, nm, fl, ln, eln, hs, ps, rt, asy, gen, ms, ext, imp, fds, bd, dc, ims, exp, lg, ia⟩
  show applyKVs zeroElement _ = _
  simp only [List.append_assoc, List.cons_append, List.nil_append]
  rw [applyKVs_type, applyKVs_name, applyKVs_file, applyKVs_line, applyKVs_endLine,
    applyKVs_hash, applyKVs_params _ _ _ rfl, applyKVs_returns _ _ _ rfl,
    applyKVs_async _ _ _ rfl, applyKVs_generator _ _ _ rfl, applyKVs_methods _ _ _ rfl,
    applyKVs_extendsF _ _ _ rfl, applyKVs_implements _ _ _ rfl, applyKVs_fields _ _ _ rfl,
    applyKVs_body, applyKVs_docstring _ _ _ rfl, applyKVs_imports _ _ _ rfl,
    applyKVs_exports _ _ _ rfl, applyKVs_language, applyKVs_indexedAt]
  rfl

/-! ## Store-scan loop lemmas -/

theorem readLoop_eq (lines : List Line) :
    ∀ acc : List CodeElement, readLoop lines acc = acc ++ lines.filterMap decodeLine := by
  induction lines with
  | nil => intro acc; simp [readLoop]
  | cons l rest ih =>
    intro acc
    cases h : decodeLine l with
    | none => simp [readLoop, h, ih]
    | some el => simp [readLoop, h, ih]

theorem searchLoop_eq (p : CodeElement → Bool) (lines : List Line) :
    ∀ acc : List CodeElement,
      searchLoop p lines acc = acc ++ (lines.filterMap decodeLine).filter p := by
  induction lines with
  | nil => intro acc; simp [searchLoop]
  | cons l rest ih =>
    intro acc
    cases h : decodeLine l with
    | none => simp [searchLoop, h, ih]
    | some el =>
      by_cases hp : p el
      · simp [searchLoop, h, hp, ih]
      · simp [searchLoop, h, hp, ih]

theorem loadLoop_mono (lines : List Line) :
    ∀ hs : List String, ∀ h ∈ hs, h ∈ loadLoop lines hs := by
  induction lines with
  | nil => intro hs h hh; simpa [loadLoop] using hh
  | cons l rest ih =>
    intro hs h hh
    cases hd : decodeLine l with
    | none => simpa [loadLoop, hd] using ih hs h hh
    | some el => simpa [loadLoop, hd] using ih (el.hash :: hs) h (List.mem_cons_of_mem _ hh)

theorem decode_marshal_lines (els : List CodeElement) :
    (els.map fun el => Line.json (marshalCodeElement el)).filterMap decodeLine = els := by
  induction els with
  | nil => rfl
  | cons el rest ih =>
    simp only [List.map_cons, List.filterMap_cons, decodeLine,
      unmarshalCodeElement_marshal el, ih]

theorem readAllList_some (lines : List Line) :
    readAllList (some lines) = lines.filterMap decodeLine := by
  simp [readAllList, readLoop_eq]

theorem readAllList_append (file : Option (List Line)) (els : List CodeElement) :
    readAllList (appendToIndex file els) = readAllList file ++ els := by
  cases file with
  | none =>
    rw [show appendToIndex none els =
        some (els.map fun el => Line.json (marshalCodeElement el)) from rfl]
    rw [readAllList_some, decode_marshal_lines]
    rfl
  | some lines =>
    rw [show appendToIndex (some lines) els =
        some (lines ++ els.map fun el => Line.json (marshalCodeElement el)) from rfl]
    rw [readAllList_some, List.filterMap_append, decode_marshal_lines, readAllList_some]

theorem ReadAll_eq (idx : Indexer) : idx.ReadAll = Except.ok (readAllList idx.file) := by
  cases h : idx.file with
  | none => simp [Indexer.ReadAll, readAllList, h]
  | some lines => simp [Indexer.ReadAll, readAllList, h]

/-! ## Index loop lemmas -/

theorem indexLoop_hs_mono (d : Bool) (els : List CodeElement) :
    ∀ tw hs, ∀ h ∈ hs, h ∈ (indexLoop d els tw hs).2 := by
  induction els with
  | nil => intro tw hs h hh; exact hh
  | cons el rest ih =>
    intro tw hs h hh
    simp only [indexLoop]
    by_cases hc : (d && hs.contains el.hash) = true
    · rw [if_pos hc]
      exact ih tw hs h hh
    · rw [if_neg hc]
      exact ih (tw ++ [el]) (el.hash :: hs) h (List.mem_cons_of_mem _ hh)

theorem indexLoop_mem_hash (d : Bool) (els : List CodeElement) :
    ∀ tw hs, ∀ el ∈ els, el.hash ∈ (indexLoop d els tw hs).2 := by
  induction els with
  | nil => intro tw hs el h; simp at h
  | cons e rest ih =>
    intro tw hs el h
    simp only [indexLoop]
    by_cases hc : (d && hs.contains e.hash) = true
    · rw [if_pos hc]
      rcases List.mem_cons.mp h with h1 | h1
      · subst h1
        have hmem : el.hash ∈ hs := List.elem_iff.mp ((Bool.and_eq_true _ _).mp hc).2
        exact indexLoop_hs_mono d rest tw hs el.hash hmem
      · exact ih tw hs el h1
    · rw [if_neg hc]
      rcases List.mem_cons.mp h with h1 | h1
      · subst h1
        exact indexLoop_hs_mono d rest (tw ++ [el]) (el.hash :: hs) el.hash
          (List.mem_cons_self _ _)
      · exact ih (tw ++ [e]) (e.hash :: hs) el h1

theorem indexLoop_allskip (els : List CodeElement) :
    ∀ tw hs, (∀ el ∈ els, el.hash ∈ hs) → indexLoop true els tw hs = (tw, hs) := by
  induction els with
  | nil => intro tw hs _; rfl
  | cons el rest ih =>
    intro tw hs h
    have hc : (true && hs.contains el.hash) = true := by
      simp only [Bool.true_and]
      exact List.elem_iff.mpr (h el (List.mem_cons_self _ _))
    simp only [indexLoop]
    rw [if_pos hc]
    exact ih tw hs fun e he => h e (List.mem_cons_of_mem _ he)

theorem indexLoop_false (els : List CodeElement) :
    ∀ tw hs, (indexLoop false els tw hs).1 = tw ++ els := by
  induction els with
  | nil => intro tw hs; simp [indexLoop]
  | cons el rest ih =>
    intro tw hs
    simp only [indexLoop]
    rw [if_neg (by simp : ¬((false && hs.contains el.hash) = true))]
    rw [ih]
    simp

theorem indexLoop_allwrite (els : List CodeElement) :
    ∀ tw hs, (els.map CodeElement.hash).Nodup → (∀ el ∈ els, el.hash ∉ hs) →
      (indexLoop true els tw hs).1 = tw ++ els := by
  induction els with
  | nil => intro tw hs _ _; simp [indexLoop]
  | cons el rest ih =>
    intro tw hs hnd hdisj
    have hc : ¬((true && hs.contains el.hash) = true) := by
      simp only [Bool.true_and]
      intro hcc
      exact hdisj el (List.mem_cons_self _ _) (List.elem_iff.mp hcc)
    simp only [indexLoop]
    rw [if_neg hc]
    rw [ih (tw ++ [el]) (el.hash :: hs) (by simpa using hnd.of_cons)]
    · simp
    · intro e he
      simp only [List.mem_cons]
      push_neg
      constructor
      · intro heq
        have hm : el.hash ∈ rest.map CodeElement.hash := heq ▸ List.mem_map_of_mem _ he
        exact (List.nodup_cons.mp (by simpa using hnd)).1 hm
      · exact hdisj e (List.mem_cons_of_mem _ he)

/-! ## The dedup invariant -/

theorem indexLoop_good (els : List CodeElement) :
    ∀ tw hs, (tw.map CodeElement.hash).Nodup → (∀ x ∈ tw, x.hash ∈ hs) →
      ((indexLoop true els tw hs).1.map CodeElement.hash).Nodup ∧
      (∀ x ∈ (indexLoop true els tw hs).1, x.hash ∈ (indexLoop true els tw hs).2) ∧
      (∀ y ∈ (indexLoop true els tw hs).1, y ∈ tw ∨ y.hash ∉ hs) := by
  induction els with
  | nil =>
    intro tw hs h1 h2
    exact ⟨h1, fun x hx => h2 x hx, fun y hy => Or.inl hy⟩
  | cons el rest ih =>
    intro tw hs h1 h2
    simp only [indexLoop]
    by_cases hc : (true && hs.contains el.hash) = true
    · rw [if_pos hc]
      exact ih tw hs h1 h2
    · rw [if_neg hc]
      have hnot : el.hash ∉ hs := by
        intro hmem
        exact hc (by simpa only [Bool.true_and] using List.elem_iff.mpr hmem)
      have p1 : ((tw ++ [el]).map CodeElement.hash).Nodup := by
        rw [List.map_append]
        rw [List.nodup_append]
        refine ⟨h1, List.nodup_singleton _, ?_⟩
        intro a ha
        simp only [List.map_cons, List.map_nil, List.mem_singleton]
        intro heq
        rcases List.mem_map.mp ha with ⟨x, hx, hxe⟩
        refine hnot ?_
        rw [← heq, ← hxe]
        exact h2 x hx
      have p2 : ∀ x ∈ tw ++ [el], x.hash ∈ el.hash :: hs := by
        intro x hx
        rcases List.mem_append.mp hx with hx1 | hx1
        · exact List.mem_cons_of_mem _ (h2 x hx1)
        · rw [List.mem_singleton.mp hx1]
          exact List.mem_cons_self _ _
      rcases ih (tw ++ [el]) (el.hash :: hs) p1 p2 with ⟨q1, q2, q3⟩
      refine ⟨q1, q2, ?_⟩
      intro y hy
      rcases q3 y hy with hy1 | hy1
      · rcases List.mem_append.mp hy1 with hy2 | hy2
        · exact Or.inl hy2
        · rw [List.mem_singleton.mp hy2]
          exact Or.inr hnot
      · exact Or.inr fun hmem => hy1 (List.mem_cons_of_mem _ hmem)

theorem Index_preserves_good (idx : Indexer) (els : List CodeElement)
    (hd : idx.deduplication = true) (hg : GoodIdx idx) : GoodIdx (idx.Index els).1 := by
  rcases hg with ⟨hnd, hsub⟩
  have hloop := indexLoop_good els [] idx.hashSet (by simp) (by simp)
  rcases hloop with ⟨q1, q2, q3⟩
  rw [Indexer.Index, hd]
  by_cases hlen : 0 < (indexLoop true els [] idx.hashSet).1.length
  · rw [if_pos hlen]
    constructor
    · show ((readAllList (appendToIndex idx.file _)).map CodeElement.hash).Nodup
      rw [readAllList_append, List.map_append, List.nodup_append]
      refine ⟨hnd, q1, ?_⟩
      intro a ha hb
      rcases List.mem_map.mp hb with ⟨y, hy, hye⟩
      rcases q3 y hy with hy1 | hy1
      · simp at hy1
      · exact hy1 (hye ▸ hsub a ha)
    · intro h hh
      have : h ∈ (readAllList (appendToIndex idx.file _)).map CodeElement.hash := hh
      rw [readAllList_append, List.map_append] at this
      rcases List.mem_append.mp this with h1 | h1
      · exact indexLoop_hs_mono true els [] idx.hashSet h (hsub h h1)
      · rcases List.mem_map.mp h1 with ⟨y, hy, hye⟩
        exact hye ▸ q2 y hy
  · rw [if_neg hlen]
    constructor
    · exact hnd
    · intro h hh
      exact indexLoop_hs_mono true els [] idx.hashSet h (hsub h hh)

theorem loadExistingHashes_good (idx : Indexer) (hg : GoodIdx idx) :
    GoodIdx idx.loadExistingHashes := by
  rcases hg with ⟨hnd, hsub⟩
  cases hf : idx.file with
  | none =>
    rw [Indexer.loadExistingHashes, hf]
    exact ⟨hnd, hsub⟩
  | some lines =>
    have heq : idx.loadExistingHashes = { idx with hashSet := loadLoop lines idx.hashSet } := by
      rw [Indexer.loadExistingHashes, hf]
    rw [heq]
    refine ⟨hnd, ?_⟩
    intro h hh
    exact loadLoop_mono lines idx.hashSet h (hsub h hh)

theorem Init_preserves_good (idx : Indexer) (hg : GoodIdx idx) : GoodIdx idx.Init := by
  rw [Indexer.Init]
  by_cases hd : idx.deduplication = true
  · rw [if_pos hd]
    exact loadExistingHashes_good idx hg
  · rw [if_neg hd]
    exact hg

/-! ## Operation sequences of a single writer -/

theorem Init_deduplication (idx : Indexer) : idx.Init.deduplication = idx.deduplication := by
  rw [Indexer.Init]
  by_cases hd : idx.deduplication = true
  · rw [if_pos hd, Indexer.loadExistingHashes]
    cases idx.file <;> rfl
  · rw [if_neg hd]

theorem Index_deduplication (idx : Indexer) (els : List CodeElement) :
    (idx.Index els).1.deduplication = idx.deduplication := by
  rw [Indexer.Index]
  by_cases hlen : 0 < (indexLoop idx.deduplication els [] idx.hashSet).1.length
  · rw [if_pos hlen]
  · rw [if_neg hlen]

theorem runOps_good (ops : List Op) :
    ∀ idx : Indexer, idx.deduplication = true → GoodIdx idx → GoodIdx (runOps idx ops) := by
  induction ops with
  | nil => intro idx _ hg; exact hg
  | cons op rest ih =>
    intro idx hd hg
    cases op with
    | init =>
      exact ih idx.Init (by rw [Init_deduplication, hd]) (Init_preserves_good idx hg)
    | add els =>
      exact ih (idx.Index els).1 (by rw [Index_deduplication, hd])
        (Index_preserves_good idx els hd hg)


/-! ## Index call lemmas -/

theorem Index_hashSet (idx : Indexer) (els : List CodeElement) :
    (idx.Index els).1.hashSet = (indexLoop idx.deduplication els [] idx.hashSet).2 := by
  rw [Indexer.Index]
  by_cases hlen : 0 < (indexLoop idx.deduplication els [] idx.hashSet).1.length
  · rw [if_pos hlen]
  · rw [if_neg hlen]

theorem Index_mem_hashSet (idx : Indexer) (els : List CodeElement) :
    ∀ el ∈ els, el.hash ∈ (idx.Index els).1.hashSet := by
  intro el h
  rw [Index_hashSet]
  exact indexLoop_mem_hash _ els [] idx.hashSet el h

/-- When every element of the batch is already known, `Index` is a complete
no-op returning zero. -/
theorem Index_all_known (idx : Indexer) (els : List CodeElement)
    (hd : idx.deduplication = true) (h : ∀ el ∈ els, el.hash ∈ idx.hashSet) :
    idx.Index els = (idx, 0) := by
  have hloop : indexLoop idx.deduplication els [] idx.hashSet = ([], idx.hashSet) := by
    rw [hd]
    exact indexLoop_allskip els [] idx.hashSet h
  rw [Indexer.Index, hloop]
  rfl

theorem Index_file_formula (idx : Indexer) (els : List CodeElement) :
    (idx.Index els).1.file =
      if 0 < (idx.toWrite els).length then appendToIndex idx.file (idx.toWrite els)
      else idx.file := by
  rw [Indexer.Index, Indexer.toWrite]
  by_cases hlen : 0 < (indexLoop idx.deduplication els [] idx.hashSet).1.length
  · rw [if_pos hlen, if_pos hlen]
  · rw [if_neg hlen, if_neg hlen]

theorem GetStats_totalElements (idx : Indexer) :
    idx.GetStats.map Stats.totalElements = Except.ok (readAllList idx.file).length := by
  rw [Indexer.GetStats, ReadAll_eq]
  rfl

/-- A batch with pairwise distinct hashes appended to the fresh dedup index
is stored in full, in order. -/
theorem fresh_index_readAll (S : List CodeElement) (hnd : (S.map CodeElement.hash).Nodup) :
    readAllList ((freshDedup.Index S).1).file = S := by
  by_cases hS : S = []
  · subst hS
    rfl
  · have hw : freshDedup.toWrite S = S := by
      rw [Indexer.toWrite]
      show (indexLoop true S [] []).1 = S
      rw [indexLoop_allwrite S [] [] hnd (by intro el _; simp)]
      simp
    rw [Index_file_formula, hw, if_pos (by simpa using List.length_pos.mpr hS)]
    show readAllList (appendToIndex none S) = S
    rw [readAllList_append]
    rfl

/-! ## The unique map of Rebuild -/

theorem upsert_coherent (l : List (String × CodeElement)) (el : CodeElement)
    (h : coherent l) : coherent (upsert l el) := by
  induction l with
  | nil =>
    intro p hp
    simp only [upsert, List.mem_singleton] at hp
    subst hp
    rfl
  | cons kv rest ih =>
    rcases kv with ⟨k, v⟩
    intro p hp
    rw [upsert] at hp
    by_cases hk : k = el.hash
    · rw [if_pos hk] at hp
      rcases List.mem_cons.mp hp with h1 | h1
      · subst h1
        exact hk
      · exact h p (List.mem_cons_of_mem _ h1)
    · rw [if_neg hk] at hp
      rcases List.mem_cons.mp hp with h1 | h1
      · subst h1
        exact h (k, v) (List.mem_cons_self _ _)
      · exact ih (fun q hq => h q (List.mem_cons_of_mem _ hq)) p h1

theorem upsert_keys (l : List (String × CodeElement)) (el : CodeElement) :
    (upsert l el).map Prod.fst =
      if el.hash ∈ l.map Prod.fst then l.map Prod.fst
      else l.map Prod.fst ++ [el.hash] := by
  induction l with
  | nil => simp [upsert]
  | cons kv rest ih =>
    rcases kv with ⟨k, v⟩
    rw [upsert]
    by_cases hk : k = el.hash
    · rw [if_pos hk]
      have hmem : el.hash ∈ ((k, v) :: rest).map Prod.fst := by
        simp [hk.symm]
      rw [if_pos hmem]
      simp
    · rw [if_neg hk]
      simp only [List.map_cons]
      rw [ih]
      by_cases hm : el.hash ∈ rest.map Prod.fst
      · rw [if_pos hm, if_pos (List.mem_cons_of_mem _ hm)]
      · have hnotc : el.hash ∉ k :: rest.map Prod.fst := by
          simp only [List.mem_cons]
          push_neg
          exact ⟨fun heq => hk heq.symm, hm⟩
        rw [if_neg hm, if_neg hnotc]
        simp

theorem upsert_keys_nodup (l : List (String × CodeElement)) (el : CodeElement)
    (h : (l.map Prod.fst).Nodup) : ((upsert l el).map Prod.fst).Nodup := by
  rw [upsert_keys]
  by_cases hm : el.hash ∈ l.map Prod.fst
  · rw [if_pos hm]
    exact h
  · rw [if_neg hm]
    simp [List.nodup_append, h, hm]

theorem upsert_keys_mem (l : List (String × CodeElement)) (el : CodeElement) (h : String) :
    h ∈ (upsert l el).map Prod.fst ↔ h ∈ l.map Prod.fst ∨ h = el.hash := by
  rw [upsert_keys]
  by_cases hm : el.hash ∈ l.map Prod.fst
  · rw [if_pos hm]
    constructor
    · exact Or.inl
    · rintro (h1 | h1)
      · exact h1
      · exact h1 ▸ hm
  · rw [if_neg hm]
    simp

theorem foldl_upsert_props (els : List CodeElement) :
    ∀ acc : List (String × CodeElement), coherent acc → (acc.map Prod.fst).Nodup →
      coherent (els.foldl upsert acc) ∧
      ((els.foldl upsert acc).map Prod.fst).Nodup ∧
      (∀ h, h ∈ (els.foldl upsert acc).map Prod.fst ↔
        h ∈ acc.map Prod.fst ∨ h ∈ els.map CodeElement.hash) := by
  induction els with
  | nil =>
    intro acc hc hn
    exact ⟨hc, hn, fun h => by simp⟩
  | cons el rest ih =>
    intro acc hc hn
    rcases ih (upsert acc el) (upsert_coherent acc el hc) (upsert_keys_nodup acc el hn)
      with ⟨q1, q2, q3⟩
    refine ⟨q1, q2, ?_⟩
    intro h
    rw [List.foldl_cons] at *
    rw [q3 h, upsert_keys_mem]
    simp only [List.map_cons, List.mem_cons]
    tauto

theorem coherent_map_snd (l : List (String × CodeElement)) (h : coherent l) :
    (l.map (·.2)).map CodeElement.hash = l.map Prod.fst := by
  induction l with
  | nil => rfl
  | cons kv rest ih =>
    simp only [List.map_cons]
    rw [ih (fun q hq => h q (List.mem_cons_of_mem _ hq))]
    rw [← h kv (List.mem_cons_self _ _)]

theorem upsert_not_mem (l : List (String × CodeElement)) (el : CodeElement)
    (h : el.hash ∉ l.map Prod.fst) : upsert l el = l ++ [(el.hash, el)] := by
  induction l with
  | nil => rfl
  | cons kv rest ih =>
    rcases kv with ⟨k, v⟩
    rw [upsert]
    have hk : k ≠ el.hash := by
      intro heq
      exact h (by simp [heq])
    rw [if_neg hk, ih (fun hm => h (by simp [hm]))]
    simp

theorem foldl_upsert_nodup_id (els : List CodeElement) :
    ∀ acc : List (String × CodeElement), (els.map CodeElement.hash).Nodup →
      (∀ el ∈ els, el.hash ∉ acc.map Prod.fst) →
      els.foldl upsert acc = acc ++ els.map fun el => (el.hash, el) := by
  induction els with
  | nil => intro acc _ _; simp
  | cons el rest ih =>
    intro acc hnd hdisj
    rw [List.foldl_cons, upsert_not_mem acc el (hdisj el (List.mem_cons_self _ _))]
    rw [ih (acc ++ [(el.hash, el)]) (by simpa using hnd.of_cons)]
    · simp
    · intro e he
      simp only [List.map_append, List.map_cons, List.map_nil, List.mem_append,
        List.mem_singleton]
      push_neg
      constructor
      · exact hdisj e (List.mem_cons_of_mem _ he)
      · intro heq
        have hm : el.hash ∈ rest.map CodeElement.hash := heq ▸ List.mem_map_of_mem _ he
        exact (List.nodup_cons.mp (by simpa using hnd)).1 hm

/-- The unique map keeps exactly one entry per distinct hash. -/
theorem uniqueFold_length (els : List CodeElement) :
    (uniqueFold els).length = (els.map CodeElement.hash).toFinset.card := by
  rcases foldl_upsert_props els [] (fun p hp => absurd hp (List.not_mem_nil p))
    (by simp) with ⟨_, hnd, hmem⟩
  have hfin : ((uniqueFold els).map Prod.fst).toFinset = (els.map CodeElement.hash).toFinset := by
    ext a
    simp only [List.mem_toFinset]
    rw [show (uniqueFold els) = els.foldl upsert [] from rfl, hmem a]
    simp
  calc (uniqueFold els).length = ((uniqueFold els).map Prod.fst).length := by simp
    _ = ((uniqueFold els).map Prod.fst).toFinset.card :=
        (List.toFinset_card_of_nodup (by
          simpa [uniqueFold] using hnd)).symm
    _ = (els.map CodeElement.hash).toFinset.card := by rw [hfin]

/-! ## Rebuild lemmas -/

theorem Clear_Init (idx : Indexer) : idx.Clear.Init = idx.Clear := by
  rw [Indexer.Init]
  by_cases hd : idx.Clear.deduplication = true
  · rw [if_pos hd]
    rfl
  · rw [if_neg hd]

theorem uniqueElementsOf_hashes_nodup (idx : Indexer) :
    ((uniqueElementsOf idx).map CodeElement.hash).Nodup := by
  rcases foldl_upsert_props (readAllList idx.file) []
    (fun p hp => absurd hp (List.not_mem_nil p)) (by simp) with ⟨hc, hnd, _⟩
  rw [uniqueElementsOf, uniqueFold, coherent_map_snd _ hc]
  exact hnd

theorem clear_toWrite (idx : Indexer) (els : List CodeElement)
    (hnd : (els.map CodeElement.hash).Nodup) : idx.Clear.toWrite els = els := by
  rw [Indexer.toWrite]
  show (indexLoop idx.deduplication els [] []).1 = els
  cases hd : idx.deduplication
  · rw [indexLoop_false]
    simp
  · rw [indexLoop_allwrite els [] [] hnd (by intro el _; simp)]
    simp

theorem Rebuild_file_formula (idx : Indexer) :
    (idx.Rebuild).file =
      if 0 < (uniqueElementsOf idx).length then appendToIndex none (uniqueElementsOf idx)
      else none := by
  show ((idx.Clear.Init).Index (uniqueElementsOf idx)).1.file = _
  rw [Clear_Init, Index_file_formula,
    clear_toWrite idx (uniqueElementsOf idx) (uniqueElementsOf_hashes_nodup idx)]
  rfl

theorem Rebuild_readAll (idx : Indexer) :
    readAllList (idx.Rebuild).file = uniqueElementsOf idx := by
  rw [Rebuild_file_formula]
  by_cases h0 : 0 < (uniqueElementsOf idx).length
  · rw [if_pos h0, readAllList_append]
    rfl
  · rw [if_neg h0]
    have : uniqueElementsOf idx = [] := by
      cases hu : uniqueElementsOf idx with
      | nil => rfl
      | cons a l => rw [hu] at h0; simp at h0
    rw [this]
    rfl

theorem Rebuild_count (idx : Indexer) :
    (readAllList (idx.Rebuild).file).length =
      ((readAllList idx.file).map CodeElement.hash).toFinset.card := by
  rw [Rebuild_readAll, uniqueElementsOf, List.length_map, uniqueFold_length]

theorem uniqueElementsOf_of_nodup (idx : Indexer)
    (hnd : ((readAllList idx.file).map CodeElement.hash).Nodup) :
    uniqueElementsOf idx = readAllList idx.file := by
  rw [uniqueElementsOf, uniqueFold,
    foldl_upsert_nodup_id (readAllList idx.file) [] hnd (by intro el _; simp)]
  simp only [List.nil_append, List.map_map]
  rw [show ((fun x : String × CodeElement => x.2) ∘ fun el : CodeElement =>
    (el.hash, el)) = id from rfl, List.map_id]

theorem Rebuild_Rebuild_file (idx : Indexer) :
    (idx.Rebuild).Rebuild.file = (idx.Rebuild).file := by
  have h1 : uniqueElementsOf idx.Rebuild = uniqueElementsOf idx := by
    rw [uniqueElementsOf, Rebuild_readAll]
    rw [uniqueFold, foldl_upsert_nodup_id (uniqueElementsOf idx) []
      (uniqueElementsOf_hashes_nodup idx) (by intro el _; simp)]
    simp only [List.nil_append, List.map_map]
    rw [show ((fun x : String × CodeElement => x.2) ∘ fun el : CodeElement =>
      (el.hash, el)) = id from rfl, List.map_id]
  rw [Rebuild_file_formula idx.Rebuild, h1, ← Rebuild_file_formula idx]

/-! ## The claims -/

/-- C1: starting from an empty store with deduplication enabled, any
single-writer sequence of `Init` and `Index` operations leaves at most one
record per `contentHash` in the on-disk store; moreover an element whose
hash is already in the in-memory hash set is dropped by `Index` — it is not
among the written elements, and no record with its hash is ever appended
again. -/
theorem C1_dedup_invariant :
    (∀ ops : List Op, (recordHashes (runOps freshDedup ops)).Nodup) ∧
    (∀ (idx : Indexer) (els : List CodeElement) (el : CodeElement),
      idx.deduplication = true → el ∈ els → el.hash ∈ idx.hashSet →
      el ∉ idx.toWrite els ∧
      (readAllList (idx.Index els).1.file).filter (fun r => r.hash == el.hash) =
        (readAllList idx.file).filter (fun r => r.hash == el.hash)) := by
  constructor
  · intro ops
    exact (runOps_good ops freshDedup rfl
      ⟨List.nodup_nil, fun h hh => absurd hh (List.not_mem_nil h)⟩).1
  · intro idx els el hd hmem hhash
    have key : ∀ y ∈ (indexLoop true els [] idx.hashSet).1, y.hash ∉ idx.hashSet := by
      intro y hy
      rcases (indexLoop_good els [] idx.hashSet (by simp) (by simp)).2.2 y hy with h1 | h1
      · exact absurd h1 (List.not_mem_nil y)
      · exact h1
    constructor
    · rw [Indexer.toWrite, hd]
      intro hin
      exact key el hin hhash
    · rw [Index_file_formula]
      by_cases h0 : 0 < (idx.toWrite els).length
      · rw [if_pos h0, readAllList_append, List.filter_append]
        have hnil : (idx.toWrite els).filter (fun r => r.hash == el.hash) = [] := by
          rw [List.filter_eq_nil_iff]
          intro a ha
          rw [Indexer.toWrite, hd] at ha
          intro habs
          rw [beq_iff_eq] at habs
          exact key a ha (habs ▸ hhash)
        rw [hnil, List.append_nil]
      · rw [if_neg h0]

/-- Witness for C1: a concrete indexer that already knows hash `"dup"`
drops a fresh element carrying that hash and appends no record under it. -/
theorem C1_dedup_invariant_witness :
    dupKnownIdx.deduplication = true ∧ dupRecord ∈ [dupRecord] ∧
    dupRecord.hash ∈ dupKnownIdx.hashSet ∧
    (dupRecord ∉ dupKnownIdx.toWrite [dupRecord] ∧
      (readAllList (dupKnownIdx.Index [dupRecord]).1.file).filter
          (fun r => r.hash == dupRecord.hash) =
        (readAllList dupKnownIdx.file).filter (fun r => r.hash == dupRecord.hash)) :=
  ⟨rfl, List.mem_cons_self _ _, by decide,
    C1_dedup_invariant.2 dupKnownIdx [dupRecord] dupRecord rfl
      (List.mem_cons_self _ _) (by decide)⟩

/-- C2: appending the same batch twice to a fresh deduplicating index is
idempotent — the second `Index` call writes zero records and leaves the
state (store file included) exactly as it was; in particular appending the
same 20-element batch twice leaves `Stats().totalElements` at 20. -/
theorem C2_dedup_idempotent :
    (∀ S : List CodeElement,
      ((freshDedup.Index S).1).Index S = ((freshDedup.Index S).1, 0)) ∧
    ((((freshDedup.Index batch20).1).Index batch20).1.GetStats.map Stats.totalElements =
      Except.ok 20) := by
  have hsecond : ∀ S : List CodeElement,
      ((freshDedup.Index S).1).Index S = ((freshDedup.Index S).1, 0) := by
    intro S
    apply Index_all_known
    · rw [Index_deduplication]
      rfl
    · intro el h
      exact Index_mem_hashSet freshDedup S el h
  refine ⟨hsecond, ?_⟩
  rw [hsecond batch20]
  show (freshDedup.Index batch20).1.GetStats.map Stats.totalElements = Except.ok 20
  rw [GetStats_totalElements, fresh_index_readAll batch20 (by decide)]
  rfl

theorem Search_eq_filter (idx : Indexer) (p : CodeElement → Bool) :
    idx.Search p = Except.map (List.filter p) idx.ReadAll := by
  cases hf : idx.file with
  | none =>
    simp only [Indexer.Search, Indexer.ReadAll, hf]
    rfl
  | some lines =>
    simp only [Indexer.Search, Indexer.ReadAll, hf]
    rw [searchLoop_eq, readLoop_eq]
    simp [Except.map]

/-- C3: for every store state and boolean predicate, `Search p` returns
exactly the records of `ReadAll` satisfying `p`, in store order. -/
theorem C3_search_filters_readAll (idx : Indexer) (p : CodeElement → Bool) :
    idx.Search p = Except.map (List.filter p) idx.ReadAll :=
  Search_eq_filter idx p

/-- C4: one `Rebuild` leaves exactly one record per distinct `contentHash`
present beforehand, and a second `Rebuild` leaves the store file
unchanged. -/
theorem C4_rebuild_idempotent (idx : Indexer) :
    (readAllList (idx.Rebuild).file).length =
      ((readAllList idx.file).map CodeElement.hash).toFinset.card ∧
    (idx.Rebuild).Rebuild.file = (idx.Rebuild).file :=
  ⟨Rebuild_count idx, Rebuild_Rebuild_file idx⟩

/-- C5: every record written by `Index` and read back by `ReadAll` is
field-for-field the record passed in — the serialized line decodes to
exactly the original element (omitted-when-empty fields come back as their
zero values), and a store after `Index` reads as the old records followed by
the written elements unchanged. -/
theorem C5_roundtrip :
    (∀ el : CodeElement, decodeLine (Line.json (marshalCodeElement el)) = some el) ∧
    (∀ (idx : Indexer) (els : List CodeElement),
      readAllList (idx.Index els).1.file = readAllList idx.file ++ idx.toWrite els) := by
  constructor
  · exact fun el => unmarshalCodeElement_marshal el
  · intro idx els
    rw [Index_file_formula]
    by_cases h0 : 0 < (idx.toWrite els).length
    · rw [if_pos h0, readAllList_append]
    · rw [if_neg h0]
      have hnil : idx.toWrite els = [] := by
        cases h : idx.toWrite els with
        | nil => rfl
        | cons a l => rw [h] at h0; simp at h0
      rw [hnil, List.append_nil]

/-- C6: `ReadAll` on a missing store file returns an empty result, not an
error; and on any store content it returns exactly the lines that
deserialize, in order, silently dropping every malformed line. -/
theorem C6_readAll_skips_malformed :
    (∀ idx : Indexer, idx.file = none → idx.ReadAll = Except.ok []) ∧
    (∀ (idx : Indexer) (lines : List Line), idx.file = some lines →
      idx.ReadAll = Except.ok (lines.filterMap decodeLine)) := by
  constructor
  · intro idx h
    rw [ReadAll_eq, h]
    rfl
  · intro idx lines h
    rw [ReadAll_eq, h, readAllList_some]

/-- Witness for C6: a fresh indexer over an absent file reads as empty, and
a store of one good record between two malformed lines reads as exactly
that record. -/
theorem C6_readAll_skips_malformed_witness :
    (Indexer.new "idx.jsonl" true none).ReadAll = Except.ok [] ∧
    mixedStoreIdx.ReadAll = Except.ok [sampleRecord] := by
  constructor
  · exact C6_readAll_skips_malformed.1 _ rfl
  · rw [C6_readAll_skips_malformed.2 mixedStoreIdx _ rfl]
    have hdec : ([Line.garbage "not json at all",
        Line.json (marshalCodeElement sampleRecord),
        Line.garbage "trunca"].filterMap decodeLine) = [sampleRecord] := by decide
    rw [hdec]

theorem extractNodeBody_degenerate (start endp : Int) (content : String)
    (hdeg : degenerateSpan start endp content) :
    extractNodeBody start endp content = "" := by
  rw [extractNodeBody]
  by_cases h0 : start = 0 ∨ endp = 0
  · rw [if_pos h0]
  · rw [if_neg h0]
    push_neg at h0
    have hcond : start - 1 < 0 ∨ endp - 1 > (content.length : Int) ∨
        start - 1 ≥ endp - 1 := by
      rcases hdeg with h | h | h | h
      · right; right; omega
      · left; omega
      · rcases h0 with ⟨h1, h2⟩
        by_cases hs : start ≤ 0
        · left; omega
        · right; right; omega
      · right; left; omega
    rw [if_pos hcond]

/-- C7: every degenerate byte range (empty or backwards span, non-positive
position, or end offset out of the buffer) makes `extractNodeBody` return
the empty string, and the extracted function or type element then carries an
empty `body` and the hash of the empty string — defined behavior, produced
without any error path. -/
theorem C7_degenerate_span (start endp : Int) (content : String)
    (hdeg : degenerateSpan start endp content) :
    extractNodeBody start endp content = "" ∧
    (∀ (fd : FuncDecl) (nm fp : String) (imps : List String) (now : String),
      fd.name = some nm → fd.pos = start → fd.endPos = endp →
      ∃ el, extractFunction fd fp content imps now = some el ∧
        el.body = "" ∧ el.hash = HashCode "") ∧
    (∀ (spec : TypeSpec) (gd : GenDecl) (fp now : String),
      gd.pos = start → gd.endPos = endp →
      (extractType spec gd fp content now).body = "" ∧
      (extractType spec gd fp content now).hash = HashCode "") := by
  have hbody0 := extractNodeBody_degenerate start endp content hdeg
  refine ⟨hbody0, ?_, ?_⟩
  · intro fd nm fp imps now hname hpos hend
    rcases fd with ⟨onm, recv, params, results, doc, pos, endPos⟩
    obtain rfl : onm = some nm := hname
    obtain rfl : pos = start := hpos
    obtain rfl : endPos = endp := hend
    refine ⟨_, rfl, ?_, ?_⟩
    · exact hbody0
    · show HashCode (extractNodeBody pos endPos content) = HashCode ""
      rw [hbody0]
  · intro spec gd fp now hpos hend
    rcases spec with ⟨sname, stype⟩
    rcases gd with ⟨doc, specs, pos, endPos⟩
    obtain rfl : pos = start := hpos
    obtain rfl : endPos = endp := hend
    cases stype with
    | structT f =>
      constructor
      · exact hbody0
      · show HashCode (extractNodeBody pos endPos content) = HashCode ""
        rw [hbody0]
    | interfaceT m =>
      constructor
      · exact hbody0
      · show HashCode (extractNodeBody pos endPos content) = HashCode ""
        rw [hbody0]
    | otherT =>
      constructor
      · exact hbody0
      · show HashCode (extractNodeBody pos endPos content) = HashCode ""
        rw [hbody0]

/-- Witness for C7: a backwards span over a concrete buffer yields the empty
body and the empty-string hash. -/
theorem C7_degenerate_span_witness :
    degenerateSpan 10 4 "package main" ∧
    (extractNodeBody 10 4 "package main" = "" ∧
    (∀ (fd : FuncDecl) (nm fp : String) (imps : List String) (now : String),
      fd.name = some nm → fd.pos = 10 → fd.endPos = 4 →
      ∃ el, extractFunction fd fp "package main" imps now = some el ∧
        el.body = "" ∧ el.hash = HashCode "") ∧
    (∀ (spec : TypeSpec) (gd : GenDecl) (fp now : String),
      gd.pos = 10 → gd.endPos = 4 →
      (extractType spec gd fp "package main" now).body = "" ∧
      (extractType spec gd fp "package main" now).hash = HashCode "")) := by
  have h : degenerateSpan 10 4 "package main" := by
    unfold degenerateSpan
    left
    omega
  exact ⟨h, C7_degenerate_span 10 4 "package main" h⟩

/-- C8: a function declaration with a receiver is named
`<receiverType>.<methodName>`, where the receiver type unwraps pointer
indirection down to the base identifier; and the two-function scenario file
yields exactly the two elements `Add` (exported, params `a int`, `b int`,
returns `int`) and `T.helper` (unexported). -/
theorem C8_method_naming :
    (∀ (fd : FuncDecl) (nm : String) (f : GoField) (fl : List GoField)
        (fp content : String) (imps : List String) (now : String),
      fd.name = some nm → fd.recv = some (f :: fl) →
      ∃ el, extractFunction fd fp content imps now = some el ∧
        el.name = getReceiverType f.type ++ "." ++ nm) ∧
    (∀ e : GoExpr, getReceiverType (GoExpr.star e) = getReceiverType e) ∧
    (∀ n : String, getReceiverType (GoExpr.ident n) = n) ∧
    (∀ now : String,
      (addHelperElems now).length = 2 ∧
      ((addHelperElems now).getD 0 zeroElement).type = "function" ∧
      ((addHelperElems now).getD 0 zeroElement).name = "Add" ∧
      ((addHelperElems now).getD 0 zeroElement).exports = true ∧
      ((addHelperElems now).getD 0 zeroElement).params =
        [{ name := "a", type := "int", default := "", optional := false },
         { name := "b", type := "int", default := "", optional := false }] ∧
      ((addHelperElems now).getD 0 zeroElement).returns = "int" ∧
      ((addHelperElems now).getD 1 zeroElement).type = "function" ∧
      ((addHelperElems now).getD 1 zeroElement).name = "T.helper" ∧
      ((addHelperElems now).getD 1 zeroElement).exports = false) := by
  refine ⟨?_, fun e => rfl, fun n => rfl, ?_⟩
  · intro fd nm f fl fp content imps now hname hrecv
    rcases fd with ⟨onm, recv, params, results, doc, pos, endPos⟩
    obtain rfl : onm = some nm := hname
    obtain rfl : recv = some (f :: fl) := hrecv
    have hnum : 0 < numFields (f :: fl) := by
      have h1 : 1 ≤ max f.names.length 1 := le_max_right _ _
      have h2 : numFields (f :: fl) =
          max f.names.length 1 + (fl.map fun g => max g.names.length 1).sum := by
        simp [numFields]
      omega
    refine ⟨_, rfl, ?_⟩
    show (if 0 < numFields (f :: fl) then getReceiverType f.type ++ "." ++ nm else nm) = _
    rw [if_pos hnum]
  · intro now
    exact ⟨rfl, rfl, rfl, rfl, rfl, rfl, rfl, rfl, rfl⟩

/-- Witness for C8: the concrete `(t *T) helper` declaration is extracted
under the name obtained from its unwrapped receiver type. -/
theorem C8_method_naming_witness :
    ∃ el, extractFunction helperFuncDecl "math.go" addHelperContent [] "now" = some el ∧
      el.name = getReceiverType (GoExpr.star (GoExpr.ident "T")) ++ "." ++ "helper" :=
  C8_method_naming.1 helperFuncDecl "helper"
    { names := ["t"], type := GoExpr.star (GoExpr.ident "T") } [] "math.go"
    addHelperContent [] "now" rfl rfl

theorem sameHash_toWrite (els : List CodeElement) (h : String)
    (hall : ∀ el ∈ els, el.hash = h) : (indexLoop true els [] []).1.length ≤ 1 := by
  cases els with
  | nil => simp [indexLoop]
  | cons el rest =>
    have hc : ¬((true && List.contains [] el.hash) = true) := by simp
    simp only [indexLoop]
    rw [if_neg hc]
    have hskip := indexLoop_allskip rest [el] [el.hash] (by
      intro e he
      rw [hall e (List.mem_cons_of_mem _ he), ← hall el (List.mem_cons_self _ _)]
      exact List.mem_singleton.mpr rfl)
    show (indexLoop true rest [el] [el.hash]).1.length ≤ 1
    rw [hskip]
    simp

/-- C10: every element extracted from one grouped type declaration block
carries the start line, end line, body and hash of the whole block, so all
of them share one body and one `contentHash`, and indexing them into a
fresh deduplicating store keeps at most one record. -/
theorem C10_grouped_type_decl (gd : GenDecl) (fp content now : String) :
    (∀ e ∈ gd.specs.map fun s => extractType s gd fp content now,
      e.line = lineOfPos content gd.pos ∧ e.endLine = lineOfPos content gd.endPos ∧
      e.body = extractNodeBody gd.pos gd.endPos content ∧
      e.hash = HashCode (extractNodeBody gd.pos gd.endPos content)) ∧
    (readAllList ((freshDedup.Index
        (gd.specs.map fun s => extractType s gd fp content now)).1).file).length ≤ 1 := by
  have hpart1 : ∀ e ∈ gd.specs.map fun s => extractType s gd fp content now,
      e.line = lineOfPos content gd.pos ∧ e.endLine = lineOfPos content gd.endPos ∧
      e.body = extractNodeBody gd.pos gd.endPos content ∧
      e.hash = HashCode (extractNodeBody gd.pos gd.endPos content) := by
    intro e he
    rcases List.mem_map.mp he with ⟨s, hs, rfl⟩
    rcases s with ⟨sname, stype⟩
    cases stype with
    | structT f => exact ⟨rfl, rfl, rfl, rfl⟩
    | interfaceT m => exact ⟨rfl, rfl, rfl, rfl⟩
    | otherT => exact ⟨rfl, rfl, rfl, rfl⟩
  refine ⟨hpart1, ?_⟩
  have htw := sameHash_toWrite (gd.specs.map fun s => extractType s gd fp content now)
    (HashCode (extractNodeBody gd.pos gd.endPos content))
    (fun el he => (hpart1 el he).2.2.2)
  rw [Index_file_formula]
  by_cases h0 : 0 < (freshDedup.toWrite
      (gd.specs.map fun s => extractType s gd fp content now)).length
  · rw [if_pos h0, readAllList_append]
    have hnone : readAllList freshDedup.file = [] := rfl
    rw [hnone, List.nil_append]
    exact htw
  · rw [if_neg h0]
    simp [freshDedup, Indexer.new, Indexer.Init, Indexer.loadExistingHashes, readAllList]

/-- Witness for C10: a concrete grouped declaration with two type aliases. -/
theorem C10_grouped_type_decl_witness :
    (∀ e ∈ groupedDecl.specs.map fun s =>
        extractType s groupedDecl "types.go" "package p" "now",
      e.line = lineOfPos "package p" groupedDecl.pos ∧
      e.endLine = lineOfPos "package p" groupedDecl.endPos ∧
      e.body = extractNodeBody groupedDecl.pos groupedDecl.endPos "package p" ∧
      e.hash = HashCode (extractNodeBody groupedDecl.pos groupedDecl.endPos "package p")) ∧
    (readAllList ((freshDedup.Index (groupedDecl.specs.map fun s =>
        extractType s groupedDecl "types.go" "package p" "now")).1).file).length ≤ 1 :=
  C10_grouped_type_decl groupedDecl "types.go" "package p" "now"

/-- C9 counterexample: searching the query `"generateCommitMessage"` over
the index holding exactly `generateQwenCommitMessage`,
`generateClaudeCommitMessage` and `generateSummary` returns no elements at
all — in particular not the two similarly-named functions the claim
promises, because neither name contains the query as a substring. -/
theorem C9_counterexample :
    searchScenarioIdx.Search (cmdSearchPred "generateCommitMessage") = Except.ok [] ∧
    searchScenarioIdx.Search (cmdSearchPred "generateCommitMessage") ≠
      Except.ok [qwenEl, claudeEl] := by
  have hread : readAllList searchScenarioIdx.file = [qwenEl, claudeEl, summaryEl] :=
    fresh_index_readAll [qwenEl, claudeEl, summaryEl] (by decide)
  have hfil : [qwenEl, claudeEl, summaryEl].filter
      (cmdSearchPred "generateCommitMessage") = [] := by decide
  have hsearch : searchScenarioIdx.Search (cmdSearchPred "generateCommitMessage") =
      Except.ok [] := by
    rw [Search_eq_filter, ReadAll_eq, hread]
    show Except.ok _ = _
    rw [hfil]
  refine ⟨hsearch, ?_⟩
  rw [hsearch]
  intro habs
  have : ([] : List CodeElement) = [qwenEl, claudeEl] := by
    injection habs
  simp at this

/-- C9 amended: the search returns exactly the stored elements whose
lower-cased name or body contains the lower-cased query as a substring — and
over this index that subset is empty, since none of the three function
names or bodies contains `"generateCommitMessage"`. -/
theorem C9_substring_search :
    searchScenarioIdx.Search (cmdSearchPred "generateCommitMessage") =
      Except.map (List.filter (cmdSearchPred "generateCommitMessage"))
        searchScenarioIdx.ReadAll ∧
    (readAllList searchScenarioIdx.file).filter
      (cmdSearchPred "generateCommitMessage") = [] := by
  constructor
  · exact Search_eq_filter searchScenarioIdx _
  · have hread : readAllList searchScenarioIdx.file = [qwenEl, claudeEl, summaryEl] :=
      fresh_index_readAll [qwenEl, claudeEl, summaryEl] (by decide)
    rw [hread]
    decide

end CodeBridge
